import Mathlib

/-!
# Verification of the grid-paper generator (`grid_gen.py`)

Shallow embedding of the pattern-geometry engine of `grid_gen.py`:
the unit converter `mm`, the five pattern generators (`draw_grid`,
`draw_dots`, `draw_lined`, `draw_hex`, `draw_iso`), the panel compositor
`make_panel` and the page assembler `make_page`.

Numbers are modelled exactly: the Python floats are embedded as rationals,
and the quantities involving `math.sqrt(3)` (hex and iso geometry, where
`sin 60° = √3/2` and `tan 60° = √3`) live in the ring `Q3 = ℚ + ℚ·√3`,
whose arithmetic and ordering are exact and decidable.

The source's `while` loops over an increasing coordinate are embedded by
`ratWhile`, a general bounded while-loop over arithmetic progressions; the
termination argument requires a positive step and an upper bound on the
values accepted by the loop condition, which is exactly the domain on which
the Python loops terminate (the source loops forever when the spacing is
not positive, so every generator is guarded by `0 < size`; outside that
guard the embedding returns `[]`).
-/

/-! ## Unit converter (source lines 17–26) -/

/-- US Letter width in mm (source constant `PAGE_W_MM`). -/
def PAGE_W_MM : ℚ := 215.9

/-- US Letter height in mm (source constant `PAGE_H_MM`). -/
def PAGE_H_MM : ℚ := 279.4

/-- Source constant `MM_PER_PT = 25.4 / 72`. -/
def MM_PER_PT : ℚ := 25.4 / 72

/-- `mm(val)`: convert mm to SVG user units (points at 72dpi).
Source: `return val / MM_PER_PT`. -/
def mm (val : ℚ) : ℚ := val / MM_PER_PT

theorem MM_PER_PT_pos : 0 < MM_PER_PT := by norm_num [MM_PER_PT]

theorem mm_pos {x : ℚ} (hx : 0 < x) : 0 < mm x :=
  div_pos hx MM_PER_PT_pos

theorem mm_nonneg {x : ℚ} (hx : 0 ≤ x) : 0 ≤ mm x :=
  div_nonneg hx MM_PER_PT_pos.le

/-! ## The ring `ℚ + ℚ·√3`

The hex generator computes `math.sqrt(3)`, `cos`/`sin` of multiples of
60°, and the iso generator computes `sin(60°) = √3/2`, `tan(60°) = √3`.
All coordinates computed by the source therefore lie in `ℚ + ℚ·√3`,
which we embed exactly as pairs. -/

/-- The number `a + b·√3`, with exact rational components. -/
structure Q3 where
  a : ℚ
  b : ℚ
deriving DecidableEq, Repr

namespace Q3

/-- Embed a rational as `q + 0·√3`. -/
def ofRat (q : ℚ) : Q3 := ⟨q, 0⟩

/-- The number `√3` itself. -/
def sqrt3 : Q3 := ⟨0, 1⟩

instance : Add Q3 := ⟨fun x y => ⟨x.a + y.a, x.b + y.b⟩⟩
instance : Sub Q3 := ⟨fun x y => ⟨x.a - y.a, x.b - y.b⟩⟩
instance : Neg Q3 := ⟨fun x => ⟨-x.a, -x.b⟩⟩
instance : Mul Q3 := ⟨fun x y => ⟨x.a * y.a + 3 * (x.b * y.b), x.a * y.b + x.b * y.a⟩⟩
instance : Zero Q3 := ⟨⟨0, 0⟩⟩
instance : One Q3 := ⟨⟨1, 0⟩⟩

/-- Scalar multiplication by a rational. -/
def scale (q : ℚ) (x : Q3) : Q3 := ⟨q * x.a, q * x.b⟩

@[simp] theorem add_a (x y : Q3) : (x + y).a = x.a + y.a := rfl
@[simp] theorem add_b (x y : Q3) : (x + y).b = x.b + y.b := rfl
@[simp] theorem sub_a (x y : Q3) : (x - y).a = x.a - y.a := rfl
@[simp] theorem sub_b (x y : Q3) : (x - y).b = x.b - y.b := rfl
@[simp] theorem mul_a (x y : Q3) : (x * y).a = x.a * y.a + 3 * (x.b * y.b) := rfl
@[simp] theorem mul_b (x y : Q3) : (x * y).b = x.a * y.b + x.b * y.a := rfl
@[simp] theorem ofRat_a (q : ℚ) : (ofRat q).a = q := rfl
@[simp] theorem ofRat_b (q : ℚ) : (ofRat q).b = 0 := rfl
@[simp] theorem scale_a (q : ℚ) (x : Q3) : (scale q x).a = q * x.a := rfl
@[simp] theorem scale_b (q : ℚ) (x : Q3) : (scale q x).b = q * x.b := rfl
@[simp] theorem sqrt3_a : sqrt3.a = 0 := rfl
@[simp] theorem sqrt3_b : sqrt3.b = 1 := rfl
@[simp] theorem mk_a (x y : ℚ) : (Q3.mk x y).a = x := rfl
@[simp] theorem mk_b (x y : ℚ) : (Q3.mk x y).b = y := rfl

/-- Exact sign test for `a + b·√3 ≥ 0`, by comparing squares:
when the two summands have opposite signs, `a + b·√3 ≥ 0` holds iff the
square of the nonnegative summand dominates (`(b·√3)² = 3·b²`). -/
def nonneg (x : Q3) : Bool :=
  if 0 ≤ x.a then
    (if 0 ≤ x.b then true else decide (x.b ^ 2 * 3 ≤ x.a ^ 2))
  else
    (if 0 ≤ x.b then decide (x.a ^ 2 ≤ 3 * x.b ^ 2) else false)

/-- Exact order test `x ≤ y` on `ℚ + ℚ·√3`. -/
def le (x y : Q3) : Bool := nonneg (y - x)

/-- The real number denoted by a `Q3` value. -/
noncomputable def toReal (x : Q3) : ℝ := (x.a : ℝ) + (x.b : ℝ) * Real.sqrt 3

theorem toReal_mul (x y : Q3) : (x * y).toReal = x.toReal * y.toReal := by
  have h3 : Real.sqrt 3 * Real.sqrt 3 = 3 :=
    Real.mul_self_sqrt (by norm_num)
  simp only [toReal, mul_a, mul_b]
  push_cast
  linear_combination (-((x.b : ℝ) * (y.b : ℝ))) * h3

theorem toReal_sub (x y : Q3) : (x - y).toReal = x.toReal - y.toReal := by
  simp only [toReal, sub_a, sub_b]
  push_cast
  ring

theorem toReal_ofRat (q : ℚ) : (ofRat q).toReal = (q : ℚ) := by
  simp [toReal, ofRat]

/-- If `t·√3 ≤ A` (as tested by `le`), then `t ≤ |A|`.  This is the
upper-bound certificate used for the termination of the hex/iso loops. -/
theorem le_bound (t A : ℚ) (h : le ⟨0, t⟩ ⟨A, 0⟩ = true) : t ≤ |A| := by
  have habs : (0:ℚ) ≤ |A| := abs_nonneg A
  have hA : A ≤ |A| := le_abs_self A
  unfold le nonneg at h
  simp only [sub_a, sub_b] at h
  by_cases h1 : (0:ℚ) ≤ A - 0
  · by_cases h2 : (0:ℚ) ≤ 0 - t
    · linarith
    · simp only [if_pos h1, if_neg h2, decide_eq_true_eq] at h
      by_contra hc
      push_neg at hc
      nlinarith
  · by_cases h2 : (0:ℚ) ≤ 0 - t
    · linarith
    · simp only [if_neg h1, if_neg h2] at h
      exact absurd h (by simp)

/-- Component form of `le_bound`, for values whose rational part is 0. -/
theorem le_bound_of_a_eq_zero (X : Q3) (A : ℚ) (hXa : X.a = 0)
    (h : le X ⟨A, 0⟩ = true) : X.b ≤ |A| := by
  obtain ⟨xa, xb⟩ := X
  have hxa : xa = 0 := hXa
  subst hxa
  exact le_bound xb A h

end Q3

/-! ## Bounded while-loops

`ratWhile s hs p C hC x` is the list of values taken by the loop variable
of `x = x₀; while p(x): ...; x += s`, for a positive step `s` and a loop
condition `p` whose accepted values are bounded above by `C` (the
certificate `hC`, which is what makes the source loop terminate). -/

def ratWhile (s : ℚ) (hs : 0 < s) (p : ℚ → Bool) (C : ℚ)
    (hC : ∀ b, p b = true → b ≤ C) (x : ℚ) : List ℚ :=
  if h : p x = true then x :: ratWhile s hs p C hC (x + s) else []
termination_by (⌊(C - x) / s⌋ + 1).toNat
decreasing_by
  have hx : x ≤ C := hC x h
  have h0 : (0:ℚ) ≤ (C - x) / s := div_nonneg (by linarith) hs.le
  have hfl : (0:ℤ) ≤ ⌊(C - x) / s⌋ := Int.floor_nonneg.mpr h0
  have heq : (C - (x + s)) / s = (C - x) / s - 1 := by
    field_simp
    ring
  have hsub : ⌊(C - x) / s - 1⌋ = ⌊(C - x) / s⌋ - 1 := by
    exact_mod_cast Int.floor_sub_int ((C - x) / s) 1
  rw [heq, hsub]
  omega

theorem ratWhile_eq (s : ℚ) (hs : 0 < s) (p : ℚ → Bool) (C : ℚ)
    (hC : ∀ b, p b = true → b ≤ C) (x : ℚ) :
    ratWhile s hs p C hC x =
      if p x = true then x :: ratWhile s hs p C hC (x + s) else [] := by
  rw [ratWhile]
  simp

/-- Closed form of a loop `while x ≤ B` running from `x₀`: the values are
the arithmetic progression `x₀, x₀+s, …` of length `⌊(B−x₀)/s⌋ + 1`. -/
theorem ratWhile_le_eq (s : ℚ) (hs : 0 < s) (B C : ℚ)
    (hC : ∀ b, (fun y => decide (y ≤ B)) b = true → b ≤ C) (x : ℚ) :
    ratWhile s hs (fun y => decide (y ≤ B)) C hC x =
      if x ≤ B then
        (List.range (⌊(B - x) / s⌋.toNat + 1)).map (fun k : ℕ => x + (k : ℚ) * s)
      else [] := by
  by_cases hx : x ≤ B
  · rw [if_pos hx]
    set n := ⌊(B - x) / s⌋.toNat with hn
    clear_value n
    induction n generalizing x with
    | zero =>
      have h0 : (0:ℚ) ≤ (B - x) / s := div_nonneg (by linarith) hs.le
      have hlt : (B - x) / s < 1 := by
        by_contra hge
        push_neg at hge
        have : (1:ℤ) ≤ ⌊(B - x) / s⌋ := by
          exact_mod_cast Int.le_floor.mpr (by push_cast; linarith)
        omega
      have hnext : ¬ (x + s ≤ B) := by
        intro hcon
        have : (1:ℚ) ≤ (B - x) / s := (le_div_iff₀ hs).mpr (by linarith)
        linarith
      rw [ratWhile_eq]
      simp only [decide_eq_true_eq, if_pos hx]
      rw [ratWhile_eq]
      simp only [decide_eq_true_eq, if_neg hnext]
      simp [List.range_succ]
    | succ m ih =>
      have hfl : ⌊(B - x) / s⌋ = (m : ℤ) + 1 := by
        have h0 : (0:ℚ) ≤ (B - x) / s := div_nonneg (by linarith) hs.le
        have : (0:ℤ) ≤ ⌊(B - x) / s⌋ := Int.floor_nonneg.mpr h0
        omega
      have hge1 : (1:ℚ) ≤ (B - x) / s := by
        have h1 : ((⌊(B - x) / s⌋ : ℤ) : ℚ) ≤ (B - x) / s := Int.floor_le _
        rw [hfl] at h1
        have hm : (0:ℚ) ≤ (m : ℚ) := by positivity
        push_cast at h1
        linarith
      have hnext : x + s ≤ B := by
        have := (le_div_iff₀ hs).mp hge1
        linarith
      have hfl2 : ⌊(B - (x + s)) / s⌋.toNat = m := by
        have heq : (B - (x + s)) / s = (B - x) / s - 1 := by
          field_simp
          ring
        have : ⌊(B - (x + s)) / s⌋ = ⌊(B - x) / s⌋ - 1 := by
          rw [heq]
          exact_mod_cast Int.floor_sub_int ((B - x) / s) 1
        omega
      rw [ratWhile_eq]
      simp only [decide_eq_true_eq, if_pos hx]
      rw [ih (x + s) hnext hfl2.symm]
      conv_rhs => rw [List.range_succ_eq_map]
      simp only [List.map_cons, List.map_map, Nat.cast_zero, zero_mul, add_zero]
      congr 1
      apply List.map_congr_left
      intro k _
      simp only [Function.comp_apply]
      push_cast
      ring
  · rw [ratWhile_eq]
    simp only [decide_eq_true_eq, if_neg hx]

/-- The number of iterations of any `ratWhile` loop is bounded by the
certificate: at most `⌊(C − x₀)/s⌋ + 1` values are produced. -/
theorem ratWhile_length_le (s : ℚ) (hs : 0 < s) (p : ℚ → Bool) (C : ℚ)
    (hC : ∀ b, p b = true → b ≤ C) (x : ℚ) :
    (ratWhile s hs p C hC x).length ≤ (⌊(C - x) / s⌋ + 1).toNat := by
  generalize hn : (⌊(C - x) / s⌋ + 1).toNat = n
  induction n generalizing x with
  | zero =>
    rw [ratWhile_eq]
    by_cases hp : p x = true
    · exfalso
      have hx : x ≤ C := hC x hp
      have h0 : (0:ℚ) ≤ (C - x) / s := div_nonneg (by linarith) hs.le
      have : (0:ℤ) ≤ ⌊(C - x) / s⌋ := Int.floor_nonneg.mpr h0
      omega
    · simp [hp]
  | succ m ih =>
    rw [ratWhile_eq]
    by_cases hp : p x = true
    · simp only [if_pos hp, List.length_cons]
      have hx : x ≤ C := hC x hp
      have h0 : (0:ℚ) ≤ (C - x) / s := div_nonneg (by linarith) hs.le
      have hfl : (0:ℤ) ≤ ⌊(C - x) / s⌋ := Int.floor_nonneg.mpr h0
      have heq : (C - (x + s)) / s = (C - x) / s - 1 := by
        field_simp
        ring
      have hsub : ⌊(C - (x + s)) / s⌋ = ⌊(C - x) / s⌋ - 1 := by
        rw [heq]
        exact_mod_cast Int.floor_sub_int ((C - x) / s) 1
      have : (⌊(C - (x + s)) / s⌋ + 1).toNat = m := by omega
      have := ih (x + s) this
      omega
    · simp [hp]

/-! ## Drawing primitives (the svg library surface used by the source) -/

/-- A subpath command of an SVG path: `svg.M`, `svg.L`, `svg.Z`. -/
inductive PathCmd where
  | M (p : Q3 × Q3)
  | L (p : Q3 × Q3)
  | Z
deriving DecidableEq, Repr

/-- The SVG elements the source constructs.  Coordinates live in `Q3`
(for grid/dots/lined they are rational, i.e. have zero `√3`-part).
A `g` carries the optional `svg.Translate` transform and the optional
clip-path reference (modelled by the bare clip id of `url(#id)`);
the fold lines' `stroke_dasharray` string `"d1,d2"` is modelled by the
pair `(d1, d2)`. -/
inductive Element where
  | line (x1 y1 x2 y2 : Q3) (stroke : String) (strokeWidth : ℚ)
      (dash : Option (ℚ × ℚ))
  | circle (cx cy : Q3) (r : ℚ) (fill : String)
  | path (d : List PathCmd) (stroke : String) (strokeWidth : ℚ) (fill : String)
  | rect (x y width height : ℚ) (fill : Option String)
  | clipPath (id : String) (elements : List Element)
  | defs (elements : List Element)
  | g (translate : Option (ℚ × ℚ)) (clipRef : Option String)
      (elements : List Element)

/-- The document returned by `make_page`: `svg.SVG(width, height, viewBox,
elements)`. -/
structure SVGDoc where
  width : ℚ
  height : ℚ
  viewBox : ℚ × ℚ × ℚ × ℚ
  elements : List Element

/-- Certificate for loops `while v ≤ B`. -/
theorem le_cert (B : ℚ) : ∀ b, (fun y => decide (y ≤ B)) b = true → b ≤ B :=
  fun _ hb => of_decide_eq_true hb

/-! ## Pattern generators (source lines 29–180)

Each generator receives `w`, `h`, `size`, `line_width` in mm (exactly as
in the source) and converts them itself via `mm`.  The source's loops
that push one element per visited coordinate are embedded as `ratWhile`
(the list of visited coordinates, in order) followed by `List.map`
building one element per coordinate, which preserves both the elements
and their order. -/

/-- `draw_grid` (source lines 29–52): vertical lines at `x = 0, step, …`
while `x ≤ pw + 0.01`, then horizontal lines likewise. -/
def draw_grid (w h size line_width : ℚ) (color : String) : List Element :=
  if hs : 0 < size then
    let step := mm size
    let sw := mm line_width
    let pw := mm w
    let ph := mm h
    (ratWhile step (mm_pos hs) (fun x => decide (x ≤ pw + 0.01)) (pw + 0.01)
        (le_cert (pw + 0.01)) 0).map
      (fun x => Element.line (Q3.ofRat x) (Q3.ofRat 0) (Q3.ofRat x)
        (Q3.ofRat ph) color sw none)
    ++ (ratWhile step (mm_pos hs) (fun y => decide (y ≤ ph + 0.01)) (ph + 0.01)
        (le_cert (ph + 0.01)) 0).map
      (fun y => Element.line (Q3.ofRat 0) (Q3.ofRat y) (Q3.ofRat pw)
        (Q3.ofRat y) color sw none)
  else []

/-- `draw_dots` (source lines 55–74): a filled circle of radius
`mm line_width / 2` at every grid intersection. -/
def draw_dots (w h size line_width : ℚ) (color : String) : List Element :=
  if hs : 0 < size then
    let step := mm size
    let r := mm line_width / 2
    let pw := mm w
    let ph := mm h
    (ratWhile step (mm_pos hs) (fun x => decide (x ≤ pw + 0.01)) (pw + 0.01)
        (le_cert (pw + 0.01)) 0).flatMap
      (fun x =>
        (ratWhile step (mm_pos hs) (fun y => decide (y ≤ ph + 0.01)) (ph + 0.01)
            (le_cert (ph + 0.01)) 0).map
          (fun y => Element.circle (Q3.ofRat x) (Q3.ofRat y) r color))
  else []

/-- `draw_lined` (source lines 77–91): horizontal lines starting one full
spacing down (`y = step`). -/
def draw_lined (w h size line_width : ℚ) (color : String) : List Element :=
  if hs : 0 < size then
    let step := mm size
    let sw := mm line_width
    let pw := mm w
    let ph := mm h
    (ratWhile step (mm_pos hs) (fun y => decide (y ≤ ph + 0.01)) (ph + 0.01)
        (le_cert (ph + 0.01)) step).map
      (fun y => Element.line (Q3.ofRat 0) (Q3.ofRat y) (Q3.ofRat pw)
        (Q3.ofRat y) color sw none)
  else []

/-! ### Hex generator -/

/-- Exact value of `cos(60°·i)` for `i = 0,…,5`:
`1, 1/2, -1/2, -1, -1/2, 1/2`. -/
def hexCos : Fin 6 → Q3
  | 0 => ⟨1, 0⟩
  | 1 => ⟨1/2, 0⟩
  | 2 => ⟨-1/2, 0⟩
  | 3 => ⟨-1, 0⟩
  | 4 => ⟨-1/2, 0⟩
  | 5 => ⟨1/2, 0⟩

/-- Exact value of `sin(60°·i)` for `i = 0,…,5`:
`0, √3/2, √3/2, 0, -√3/2, -√3/2`. -/
def hexSin : Fin 6 → Q3
  | 0 => ⟨0, 0⟩
  | 1 => ⟨0, 1/2⟩
  | 2 => ⟨0, 1/2⟩
  | 3 => ⟨0, 0⟩
  | 4 => ⟨0, -1/2⟩
  | 5 => ⟨0, -1/2⟩

/-- The `i`-th vertex of the flat-top hex of side `s` centered at
`(cx, cy·…)`: source `px = cx + s*cos(60°·i)`, `py = cy + s*sin(60°·i)`,
where the center ordinate is `cy = cyb·√3` (see `hexCenters`). -/
def hexVertex (s cx cyb : ℚ) (i : Fin 6) : Q3 × Q3 :=
  (Q3.ofRat cx + Q3.ofRat s * hexCos i, ⟨0, cyb⟩ + Q3.ofRat s * hexSin i)

/-- One hexagon's subpath: `M pts[0]`, `L pts[1..5]`, `Z` (the source's
`for i in range(6)` building `pts`, unrolled). -/
def hexBlock (s cx cyb : ℚ) : List PathCmd :=
  [PathCmd.M (hexVertex s cx cyb 0),
   PathCmd.L (hexVertex s cx cyb 1),
   PathCmd.L (hexVertex s cx cyb 2),
   PathCmd.L (hexVertex s cx cyb 3),
   PathCmd.L (hexVertex s cx cyb 4),
   PathCmd.L (hexVertex s cx cyb 5),
   PathCmd.Z]

theorem hexColStep_pos {s : ℚ} (hs : 0 < s) : 0 < s * 2 * 0.75 := by
  nlinarith

/-- Certificate for the hex column loop `while cx - s ≤ pw`. -/
theorem hex_col_cert (s pw : ℚ) :
    ∀ b, (fun cx => decide (cx - s ≤ pw)) b = true → b ≤ pw + s := by
  intro b hb
  have := of_decide_eq_true hb
  linarith

/-- Certificate for the hex row loop `while cy - hex_h/2 ≤ ph`, written
on the `√3`-coefficient `b` of `cy = b·√3` (and `hex_h = s·√3`). -/
theorem hex_row_cert (s ph : ℚ) :
    ∀ b : ℚ,
      (fun b : ℚ => Q3.le (⟨0, b⟩ - Q3.scale (1/2) (Q3.ofRat s * Q3.sqrt3))
        (Q3.ofRat ph)) b = true →
      b ≤ |ph| + s / 2 := by
  intro b hb
  simp only at hb
  have ha : ((⟨0, b⟩ : Q3) - Q3.scale (1/2) (Q3.ofRat s * Q3.sqrt3)).a = 0 := by
    simp
  have hb2 := Q3.le_bound_of_a_eq_zero _ ph ha hb
  have hbv : ((⟨0, b⟩ : Q3) - Q3.scale (1/2) (Q3.ofRat s * Q3.sqrt3)).b
      = b - s / 2 := by
    simp only [Q3.sub_b, Q3.mk_b, Q3.scale_b, Q3.mul_b, Q3.ofRat_a, Q3.ofRat_b,
      Q3.sqrt3_a, Q3.sqrt3_b]
    ring
  rw [hbv] at hb2
  linarith

/-- The hex centers, in source enumeration order: columns at
`cx = 0, col_step, …` while `cx - s ≤ pw` (with `col_step = hex_w·0.75`,
`hex_w = 2s`), odd columns vertically offset by `hex_h/2`; rows at
`cy = row_offset, row_offset + hex_h, …` while `cy - hex_h/2 ≤ ph`
(with `hex_h = s·√3`).  Every `cy` is of the form `b·√3`, so a center is
the pair `(cx, b)` of exact rationals. -/
def hexCenters (s pw ph : ℚ) (hs : 0 < s) : List (ℚ × ℚ) :=
  (List.enum (ratWhile (s * 2 * 0.75) (hexColStep_pos hs)
      (fun cx => decide (cx - s ≤ pw)) (pw + s) (hex_col_cert s pw) 0)).flatMap
    (fun ci =>
      (ratWhile s hs
          (fun b : ℚ => Q3.le (⟨0, b⟩ - Q3.scale (1/2) (Q3.ofRat s * Q3.sqrt3))
            (Q3.ofRat ph))
          (|ph| + s / 2) (hex_row_cert s ph)
          (if ci.1 % 2 = 1 then s / 2 else 0)).map
        (fun b => (ci.2, b)))

/-- `draw_hex` (source lines 94–131): the source's nested column/row
loops append each hexagon's subpath to one shared `path_data` list and
return a single `svg.Path`; equivalently (same blocks, same order), the
concatenation of `hexBlock` over `hexCenters`. -/
def draw_hex (w h size line_width : ℚ) (color : String) : List Element :=
  if hs : 0 < size then
    let s := mm size
    let sw := mm line_width
    let pw := mm w
    let ph := mm h
    [Element.path
      ((hexCenters s pw ph (mm_pos hs)).flatMap (fun p => hexBlock s p.1 p.2))
      color sw "none"]
  else []

/-! ### Iso generator -/

/-- Certificate for the iso diagonal loops `while x ≤ pw`, written on the
`√3`-coefficient `b` of `x = b·√3`. -/
theorem iso_diag_cert (pw : ℚ) :
    ∀ b : ℚ, (fun b : ℚ => Q3.le (⟨0, b⟩ : Q3) (Q3.ofRat pw)) b = true →
      b ≤ |pw| :=
  fun b hb => Q3.le_bound b pw hb

theorem iso_step_pos {s : ℚ} (hs : 0 < s) : 0 < 2 * s / 3 := by linarith

/-- `draw_iso` (source lines 134–180): horizontal lines as in the grid;
then two diagonal families whose x-intercepts start at
`start = -ph/tan(60°) = (-ph/3)·√3` and advance by
`dx = spacing/sin(60°) = (2·spacing/3)·√3` while `x ≤ pw`; each diagonal
runs between `y = ph` and `y = 0` with along-x extent
`ph/tan(60°) = (ph/3)·√3`.  All diagonal x-coordinates are of the form
`b·√3` and are represented by their exact coefficient `b`. -/
def draw_iso (w h size line_width : ℚ) (color : String) : List Element :=
  if hs : 0 < size then
    let sw := mm line_width
    let pw := mm w
    let ph := mm h
    let spacing := mm size
    (ratWhile spacing (mm_pos hs) (fun y => decide (y ≤ ph + 0.01)) (ph + 0.01)
        (le_cert (ph + 0.01)) 0).map
      (fun y => Element.line (Q3.ofRat 0) (Q3.ofRat y) (Q3.ofRat pw)
        (Q3.ofRat y) color sw none)
    ++ (ratWhile (2 * spacing / 3) (iso_step_pos (mm_pos hs))
        (fun b : ℚ => Q3.le (⟨0, b⟩ : Q3) (Q3.ofRat pw)) |pw|
        (iso_diag_cert pw) (-ph / 3)).map
      (fun b => Element.line (⟨0, b⟩ : Q3) (Q3.ofRat ph)
        (⟨0, b + ph / 3⟩ : Q3) (Q3.ofRat 0) color sw none)
    ++ (ratWhile (2 * spacing / 3) (iso_step_pos (mm_pos hs))
        (fun b : ℚ => Q3.le (⟨0, b⟩ : Q3) (Q3.ofRat pw)) |pw|
        (iso_diag_cert pw) (-ph / 3)).map
      (fun b => Element.line (⟨0, b⟩ : Q3) (Q3.ofRat 0)
        (⟨0, b + ph / 3⟩ : Q3) (Q3.ofRat ph) color sw none)
  else []

/-! ## Generator dispatch, panel compositor, page assembler
(source lines 183–343) -/

/-- The five pattern types accepted by `--type` (argparse `choices`). -/
inductive PatternKind where
  | grid | dots | hex | lined | iso
deriving DecidableEq, Repr

/-- The source's `DRAW_FNS` lookup table, keyed by pattern type. -/
def DRAW_FNS : PatternKind → (ℚ → ℚ → ℚ → ℚ → String → List Element)
  | .grid => draw_grid
  | .dots => draw_dots
  | .hex => draw_hex
  | .lined => draw_lined
  | .iso => draw_iso

/-- `--orientation` choices. -/
inductive PageOrientation where
  | portrait | landscape
deriving DecidableEq, Repr

/-- `--layout` choices. -/
inductive Layout where
  | full | half | quarter
deriving DecidableEq, Repr

/-- The parsed CLI arguments consumed by `make_page` (argparse
restricts the enumerated fields to the values of these types). -/
structure Args where
  ptype : PatternKind
  size : ℚ
  line_width : ℚ
  color : String
  orientation : PageOrientation
  layout : Layout
  margin : ℚ

/-- `make_panel` (source lines 192–226): create a clipped, translated
panel of grid pattern.  `offset_x`, `offset_y` are in points; `panel_w_mm`,
`panel_h_mm` and `margin_mm` are in mm. -/
def make_panel (draw_fn : ℚ → ℚ → ℚ → ℚ → String → List Element)
    (panel_w_mm panel_h_mm offset_x offset_y margin_mm size line_width : ℚ)
    (color clip_id : String) : List Element :=
  let inner_w := panel_w_mm - 2 * margin_mm
  let inner_h := panel_h_mm - 2 * margin_mm
  let margin_pt := mm margin_mm
  let pattern_elements := draw_fn inner_w inner_h size line_width color
  let clip := Element.clipPath clip_id
    [Element.rect 0 0 (mm inner_w) (mm inner_h) none]
  [Element.g (some (offset_x + margin_pt, offset_y + margin_pt)) none
    [Element.defs [clip],
     Element.g none (some clip_id) pattern_elements]]

/-- The page width in mm after applying the orientation swap
(source lines 231–234). -/
def page_w_mm_of (args : Args) : ℚ :=
  if args.orientation = .landscape then PAGE_H_MM else PAGE_W_MM

/-- The page height in mm after applying the orientation swap. -/
def page_h_mm_of (args : Args) : ℚ :=
  if args.orientation = .landscape then PAGE_W_MM else PAGE_H_MM

/-- `make_page` (source lines 229–343): assemble the full SVG page with
the chosen layout.  Elements are, in order: the white background, the
panels of the layout, then the fold lines (one vertical dashed line at
the page's horizontal center for `half`; none for `full`; the `quarter`
fold lines are commented out in the source). -/
def make_page (args : Args) : SVGDoc :=
  let page_w_mm := page_w_mm_of args
  let page_h_mm := page_h_mm_of args
  let page_w := mm page_w_mm
  let page_h := mm page_h_mm
  let draw_fn := DRAW_FNS args.ptype
  let background := Element.rect 0 0 page_w page_h (some "white")
  let fold_color := "#999999"
  let fold_width := mm 0.2
  let fold_dash : ℚ × ℚ := (mm 2, mm 2)
  let elements :=
    match args.layout with
    | .full =>
        [background]
        ++ make_panel draw_fn page_w_mm page_h_mm 0 0 args.margin args.size
            args.line_width args.color "clip-0"
    | .half =>
        let half_w := page_w_mm / 2
        [background]
        ++ make_panel draw_fn half_w page_h_mm (mm half_w * 0) 0 args.margin
            args.size args.line_width args.color "clip-0"
        ++ make_panel draw_fn half_w page_h_mm (mm half_w * 1) 0 args.margin
            args.size args.line_width args.color "clip-1"
        ++ [Element.line (Q3.ofRat (page_w / 2)) (Q3.ofRat 0)
             (Q3.ofRat (page_w / 2)) (Q3.ofRat page_h)
             fold_color fold_width (some fold_dash)]
    | .quarter =>
        let half_w := page_w_mm / 2
        let half_h := page_h_mm / 2
        [background]
        ++ make_panel draw_fn half_w half_h (mm half_w * 0) (mm half_h * 0)
            args.margin args.size args.line_width args.color "clip-0"
        ++ make_panel draw_fn half_w half_h (mm half_w * 1) (mm half_h * 0)
            args.margin args.size args.line_width args.color "clip-1"
        ++ make_panel draw_fn half_w half_h (mm half_w * 0) (mm half_h * 1)
            args.margin args.size args.line_width args.color "clip-2"
        ++ make_panel draw_fn half_w half_h (mm half_w * 1) (mm half_h * 1)
            args.margin args.size args.line_width args.color "clip-3"
  ⟨page_w, page_h, (0, 0, page_w, page_h), elements⟩

/-! ## Color normalization (source lines 458–465) -/

/-- The hex-digit alphabet tested by the source's membership check. -/
def HEX_DIGITS : List Char := "0123456789abcdefABCDEF".toList

/-- Python's `c.startswith("#")` for the one-character pattern `"#"`:
true iff the first character of `c` is `#`. -/
def starts_with_hash (c : String) : Bool :=
  match c.toList with
  | [] => false
  | ch :: _ => ch == '#'

/-- Normalize bare hex color values (e.g. `b3b3b3` → `#b3b3b3`),
source lines 459–465. -/
def normalize_color (c : String) : String :=
  if !starts_with_hash c
      && c.toList.all (fun ch => HEX_DIGITS.contains ch)
      && (c.length == 3 || c.length == 6 || c.length == 8)
  then "#" ++ c
  else c

/-! ## Claims -/

/-- Modelled from the spec: the inverse direction of the unit converter,
`fromUserUnits(units) -> mm`.  The source defines only the forward
conversion `mm`; the spec's contract names an exact inverse at the fixed
ratio `1 unit = 25.4/72 mm`, which is multiplication by `MM_PER_PT`. -/
def fromUserUnits (u : ℚ) : ℚ := u * MM_PER_PT

/-- C7: the unit converter maps millimeters to document units at the
fixed ratio 1 unit = 25.4/72 mm (so one inch, 25.4 mm, is 72 units), has
an exact inverse, and round-trips losslessly in both directions (the
rational model is exact, hence in particular lossless to floating-point
precision). -/
theorem unit_conversion_roundtrip :
    (∀ x : ℚ, fromUserUnits (mm x) = x)
    ∧ (∀ u : ℚ, mm (fromUserUnits u) = u)
    ∧ mm 25.4 = 72
    ∧ MM_PER_PT = 25.4 / 72 := by
  refine ⟨fun x => ?_, fun u => ?_, ?_, rfl⟩
  · rw [mm, fromUserUnits, div_mul_cancel₀ x (ne_of_gt MM_PER_PT_pos)]
  · rw [mm, fromUserUnits, mul_div_cancel_right₀ u (ne_of_gt MM_PER_PT_pos)]
  · norm_num [mm, MM_PER_PT]

/-- C9: color normalization.  A string of hex digits of length 3, 6 or 8
without a leading `#` is prefixed with `#`; a string starting with `#`
is unchanged; anything else is passed through unmodified. -/
theorem color_normalization (c : String) :
    (starts_with_hash c = false →
      c.toList.all (fun ch => HEX_DIGITS.contains ch) = true →
      (c.length = 3 ∨ c.length = 6 ∨ c.length = 8) →
      normalize_color c = "#" ++ c)
    ∧ (starts_with_hash c = true → normalize_color c = c)
    ∧ (starts_with_hash c = false →
        ¬(c.toList.all (fun ch => HEX_DIGITS.contains ch) = true
          ∧ (c.length = 3 ∨ c.length = 6 ∨ c.length = 8)) →
        normalize_color c = c) := by
  have hcond :
      (!starts_with_hash c
        && c.toList.all (fun ch => HEX_DIGITS.contains ch)
        && (c.length == 3 || c.length == 6 || c.length == 8)) = true
      ↔ (starts_with_hash c = false
          ∧ c.toList.all (fun ch => HEX_DIGITS.contains ch) = true
          ∧ (c.length = 3 ∨ c.length = 6 ∨ c.length = 8)) := by
    constructor
    · intro hb
      simp only [Bool.and_eq_true, Bool.not_eq_true', Bool.or_eq_true,
        beq_iff_eq] at hb
      exact ⟨hb.1.1, hb.1.2, hb.2.elim (fun h2 => h2.elim Or.inl (fun h3 => Or.inr (Or.inl h3))) (fun h4 => Or.inr (Or.inr h4))⟩
    · intro hp
      simp only [Bool.and_eq_true, Bool.not_eq_true', Bool.or_eq_true,
        beq_iff_eq]
      exact ⟨⟨hp.1, hp.2.1⟩, hp.2.2.elim (fun h2 => Or.inl (Or.inl h2)) (fun h3 => h3.elim (fun h4 => Or.inl (Or.inr h4)) Or.inr)⟩
  refine ⟨fun h1 h2 h3 => ?_, fun h1 => ?_, fun h1 h2 => ?_⟩
  · unfold normalize_color
    rw [if_pos (hcond.mpr ⟨h1, h2, h3⟩)]
  · unfold normalize_color
    rw [if_neg]
    intro hc
    have hx := (hcond.mp hc).1
    rw [h1] at hx
    exact absurd hx (by simp)
  · unfold normalize_color
    rw [if_neg]
    intro hc
    exact h2 (hcond.mp hc).2

/-- Witness for C9 at the spec's three examples. -/
theorem color_normalization_witness :
    normalize_color "b3b3b3" = "#b3b3b3"
    ∧ normalize_color "#cccccc" = "#cccccc"
    ∧ normalize_color "red" = "red" := by
  refine ⟨?_, ?_, ?_⟩
  · have h := (color_normalization "b3b3b3").1 (by decide) (by decide)
      (Or.inr (Or.inl (by decide)))
    exact h.trans (by decide)
  · exact (color_normalization "#cccccc").2.1 (by decide)
  · exact (color_normalization "red").2.2 (by decide)
      (fun hc => absurd hc.1 (by decide))

/-- C4: `make_panel` computes the inner area `(panelW − 2·margin,
panelH − 2·margin)`, invokes the generator on it, wraps the result in a
clip rectangle of exactly the inner area's (converted) size, and
translates the clipped group by `(offsetX + mm margin, offsetY + mm
margin)` in document units. -/
theorem panel_composition
    (draw_fn : ℚ → ℚ → ℚ → ℚ → String → List Element)
    (panel_w_mm panel_h_mm offset_x offset_y margin_mm size line_width : ℚ)
    (color clip_id : String) :
    make_panel draw_fn panel_w_mm panel_h_mm offset_x offset_y margin_mm size
        line_width color clip_id =
      [Element.g (some (offset_x + mm margin_mm, offset_y + mm margin_mm)) none
        [Element.defs [Element.clipPath clip_id
            [Element.rect 0 0 (mm (panel_w_mm - 2 * margin_mm))
              (mm (panel_h_mm - 2 * margin_mm)) none]],
         Element.g none (some clip_id)
           (draw_fn (panel_w_mm - 2 * margin_mm) (panel_h_mm - 2 * margin_mm)
             size line_width color)]] := rfl

/-- C10: for every area and spacing > 0 the hex generator returns a
sequence containing exactly one `Path` primitive, with all hexagons as
subpaths (blocks) of that single path. -/
theorem hex_single_path (w h size line_width : ℚ) (color : String)
    (hs : 0 < size) :
    ∃ centers : List (ℚ × ℚ),
      draw_hex w h size line_width color =
        [Element.path
          (centers.flatMap (fun p => hexBlock (mm size) p.1 p.2))
          color (mm line_width) "none"] := by
  refine ⟨hexCenters (mm size) (mm w) (mm h) (mm_pos hs), ?_⟩
  unfold draw_hex
  rw [dif_pos hs]

/-- Witness for C10 at a concrete input. -/
theorem hex_single_path_witness :
    (0:ℚ) < 5
    ∧ ∃ centers : List (ℚ × ℚ),
        draw_hex 20 30 5 1 "#cccccc" =
          [Element.path
            (centers.flatMap (fun p => hexBlock (mm 5) p.1 p.2))
            "#cccccc" (mm 1) "none"] :=
  ⟨by norm_num, hex_single_path 20 30 5 1 "#cccccc" (by norm_num)⟩

/-- Number of panels per layout: 1 for full, 2 for half, 4 for quarter. -/
def panelCount : Layout → ℕ
  | .full => 1
  | .half => 2
  | .quarter => 4

/-- A composed panel group: a `g` carrying a translation transform. -/
def isTranslatedGroup : Element → Bool
  | .g (some _) _ _ => true
  | _ => false

/-- C5: for every configuration, the document's element sequence is one
opaque (white) full-page background rectangle, then exactly one composed
panel group per panel of the layout in layout order, then the fold-line
primitives; in the half layout the fold lines are exactly one vertical
dashed line at the page's horizontal midpoint spanning the full page
height, and in the other layouts there are none. -/
theorem page_assembly_structure (args : Args) :
    ∃ panels folds : List Element,
      (make_page args).elements =
        Element.rect 0 0 (mm (page_w_mm_of args)) (mm (page_h_mm_of args))
          (some "white") :: panels ++ folds
      ∧ panels.length = panelCount args.layout
      ∧ panels.all isTranslatedGroup = true
      ∧ folds = (if args.layout = .half then
          [Element.line (Q3.ofRat (mm (page_w_mm_of args) / 2)) (Q3.ofRat 0)
            (Q3.ofRat (mm (page_w_mm_of args) / 2))
            (Q3.ofRat (mm (page_h_mm_of args)))
            "#999999" (mm 0.2) (some (mm 2, mm 2))]
        else []) := by
  cases hl : args.layout with
  | full =>
      refine ⟨make_panel (DRAW_FNS args.ptype) (page_w_mm_of args)
        (page_h_mm_of args) 0 0 args.margin args.size args.line_width
        args.color "clip-0", [], ?_, ?_, ?_, ?_⟩
      · simp [make_page, hl]
      · simp [make_panel, panelCount]
      · simp [make_panel, isTranslatedGroup]
      · simp
  | half =>
      refine ⟨make_panel (DRAW_FNS args.ptype) (page_w_mm_of args / 2)
          (page_h_mm_of args) 0 0 args.margin args.size args.line_width
          args.color "clip-0"
        ++ make_panel (DRAW_FNS args.ptype) (page_w_mm_of args / 2)
          (page_h_mm_of args) (mm (page_w_mm_of args / 2)) 0 args.margin
          args.size args.line_width args.color "clip-1",
        [Element.line (Q3.ofRat (mm (page_w_mm_of args) / 2)) (Q3.ofRat 0)
          (Q3.ofRat (mm (page_w_mm_of args) / 2))
          (Q3.ofRat (mm (page_h_mm_of args)))
          "#999999" (mm 0.2) (some (mm 2, mm 2))], ?_, ?_, ?_, ?_⟩
      · simp [make_page, hl, make_panel]
      · simp [make_panel, panelCount]
      · simp [make_panel, isTranslatedGroup]
      · simp
  | quarter =>
      refine ⟨make_panel (DRAW_FNS args.ptype) (page_w_mm_of args / 2)
          (page_h_mm_of args / 2) 0 0 args.margin args.size args.line_width
          args.color "clip-0"
        ++ make_panel (DRAW_FNS args.ptype) (page_w_mm_of args / 2)
          (page_h_mm_of args / 2) (mm (page_w_mm_of args / 2)) 0 args.margin
          args.size args.line_width args.color "clip-1"
        ++ make_panel (DRAW_FNS args.ptype) (page_w_mm_of args / 2)
          (page_h_mm_of args / 2) 0 (mm (page_h_mm_of args / 2)) args.margin
          args.size args.line_width args.color "clip-2"
        ++ make_panel (DRAW_FNS args.ptype) (page_w_mm_of args / 2)
          (page_h_mm_of args / 2) (mm (page_w_mm_of args / 2))
          (mm (page_h_mm_of args / 2)) args.margin
          args.size args.line_width args.color "clip-3",
        [], ?_, ?_, ?_, ?_⟩
      · simp [make_page, hl, make_panel]
      · simp [make_panel, panelCount]
      · simp [make_panel, isTranslatedGroup]
      · simp

/-- C2: on a `W×H`-area (document units `W = mm w`, `H = mm h`) with
spacing `S = mm size > 0`, `draw_grid` emits exactly `⌊W/S⌋ + 1` vertical
lines — under the 0.01-unit boundary-tolerance proviso, stated as the
hypothesis that the tolerance does not tip the count, i.e.
`⌊(W+0.01)/S⌋ = ⌊W/S⌋` — the `k`-th at `x = k·S` starting exactly at 0,
each spanning exactly `y ∈ [0, H]`; symmetrically for the horizontal
lines spanning `x ∈ [0, W]`. -/
theorem grid_generator_lines (w h size line_width : ℚ) (color : String)
    (hs : 0 < size) (hw : 0 ≤ w) (hh : 0 ≤ h)
    (htw : ⌊(mm w + 0.01) / mm size⌋ = ⌊mm w / mm size⌋)
    (hth : ⌊(mm h + 0.01) / mm size⌋ = ⌊mm h / mm size⌋) :
    ∃ vn hn : ℕ,
      ((vn : ℤ) = ⌊mm w / mm size⌋ + 1 ∧ (hn : ℤ) = ⌊mm h / mm size⌋ + 1)
      ∧ draw_grid w h size line_width color =
          (List.range vn).map (fun k : ℕ =>
            Element.line (Q3.ofRat ((k : ℚ) * mm size)) (Q3.ofRat 0)
              (Q3.ofRat ((k : ℚ) * mm size)) (Q3.ofRat (mm h)) color
              (mm line_width) none)
          ++ (List.range hn).map (fun k : ℕ =>
            Element.line (Q3.ofRat 0) (Q3.ofRat ((k : ℚ) * mm size))
              (Q3.ofRat (mm w)) (Q3.ofRat ((k : ℚ) * mm size)) color
              (mm line_width) none) := by
  have hw0 : (0:ℚ) ≤ mm w + 0.01 := by linarith [mm_nonneg hw]
  have hh0 : (0:ℚ) ≤ mm h + 0.01 := by linarith [mm_nonneg hh]
  have hfw : (0:ℤ) ≤ ⌊(mm w + 0.01) / mm size⌋ :=
    Int.floor_nonneg.mpr (div_nonneg hw0 (mm_pos hs).le)
  have hfh : (0:ℤ) ≤ ⌊(mm h + 0.01) / mm size⌋ :=
    Int.floor_nonneg.mpr (div_nonneg hh0 (mm_pos hs).le)
  refine ⟨⌊(mm w + 0.01) / mm size⌋.toNat + 1,
    ⌊(mm h + 0.01) / mm size⌋.toNat + 1, ⟨?_, ?_⟩, ?_⟩
  · rw [← htw]
    push_cast [Int.toNat_of_nonneg hfw]
    ring
  · rw [← hth]
    push_cast [Int.toNat_of_nonneg hfh]
    ring
  · unfold draw_grid
    rw [dif_pos hs]
    simp only []
    rw [ratWhile_le_eq, ratWhile_le_eq, if_pos hw0, if_pos hh0]
    simp only [sub_zero]
    congr 1
    · rw [List.map_map]
      apply List.map_congr_left
      intro k _
      simp
    · rw [List.map_map]
      apply List.map_congr_left
      intro k _
      simp

/-- Witness for C2 at `w = 10`, `h = 7`, `size = 3` (mm). -/
theorem grid_generator_lines_witness :
    (0:ℚ) < 3
    ∧ ∃ vn hn : ℕ,
      ((vn : ℤ) = ⌊mm 10 / mm 3⌋ + 1 ∧ (hn : ℤ) = ⌊mm 7 / mm 3⌋ + 1)
      ∧ draw_grid 10 7 3 1 "#cccccc" =
          (List.range vn).map (fun k : ℕ =>
            Element.line (Q3.ofRat ((k : ℚ) * mm 3)) (Q3.ofRat 0)
              (Q3.ofRat ((k : ℚ) * mm 3)) (Q3.ofRat (mm 7)) "#cccccc"
              (mm 1) none)
          ++ (List.range hn).map (fun k : ℕ =>
            Element.line (Q3.ofRat 0) (Q3.ofRat ((k : ℚ) * mm 3))
              (Q3.ofRat (mm 10)) (Q3.ofRat ((k : ℚ) * mm 3)) "#cccccc"
              (mm 1) none) := by
  have h1 : ⌊(mm 10 + 0.01) / mm 3⌋ = (3:ℤ) :=
    Int.floor_eq_iff.mpr
      ⟨by norm_num [mm, MM_PER_PT], by norm_num [mm, MM_PER_PT]⟩
  have h2 : ⌊mm 10 / mm 3⌋ = (3:ℤ) :=
    Int.floor_eq_iff.mpr
      ⟨by norm_num [mm, MM_PER_PT], by norm_num [mm, MM_PER_PT]⟩
  have h3 : ⌊(mm 7 + 0.01) / mm 3⌋ = (2:ℤ) :=
    Int.floor_eq_iff.mpr
      ⟨by norm_num [mm, MM_PER_PT], by norm_num [mm, MM_PER_PT]⟩
  have h4 : ⌊mm 7 / mm 3⌋ = (2:ℤ) :=
    Int.floor_eq_iff.mpr
      ⟨by norm_num [mm, MM_PER_PT], by norm_num [mm, MM_PER_PT]⟩
  exact ⟨by norm_num,
    grid_generator_lines 10 7 3 1 "#cccccc" (by norm_num) (by norm_num)
      (by norm_num) (h1.trans h2.symm) (h3.trans h4.symm)⟩

theorem Q3.ext {x y : Q3} (ha : x.a = y.a) (hb : x.b = y.b) : x = y := by
  obtain ⟨xa, xb⟩ := x
  obtain ⟨ya, yb⟩ := y
  have h1 : xa = ya := ha
  have h2 : xb = yb := hb
  subst h1
  subst h2
  rfl

/-- Is a path command a line-to? -/
def isL : PathCmd → Bool
  | .L _ => true
  | _ => false

/-- Is a path command a move-to? -/
def isM : PathCmd → Bool
  | .M _ => true
  | _ => false

/-- C3 (amended): every hexagon the hex generator emits is a closed
subpath of the form move-to the first vertex, five line-to segments,
close (the close draws the sixth side), and each of its 6 vertices, at
angles 0°,60°,…,300°, lies at Euclidean distance exactly `mm size` (the
hex side length in document units) from the hexagon's center
`(cx, cyb·√3)`. -/
theorem hex_path_geometry (w h size line_width : ℚ) (color : String)
    (hs : 0 < size) :
    ∃ centers : List (ℚ × ℚ),
      draw_hex w h size line_width color =
        [Element.path
          (centers.flatMap (fun p => hexBlock (mm size) p.1 p.2))
          color (mm line_width) "none"]
      ∧ (∀ cx cyb : ℚ,
          (hexBlock (mm size) cx cyb).length = 7
          ∧ (hexBlock (mm size) cx cyb).countP isL = 5
          ∧ (hexBlock (mm size) cx cyb).head? =
              some (PathCmd.M (hexVertex (mm size) cx cyb 0))
          ∧ (hexBlock (mm size) cx cyb).getLast? = some PathCmd.Z)
      ∧ (∀ (cx cyb : ℚ) (i : Fin 6),
          Real.sqrt ((((hexVertex (mm size) cx cyb i).1
              - Q3.ofRat cx).toReal) ^ 2
            + (((hexVertex (mm size) cx cyb i).2
              - (⟨0, cyb⟩ : Q3)).toReal) ^ 2)
          = ((mm size : ℚ) : ℝ)) := by
  refine ⟨hexCenters (mm size) (mm w) (mm h) (mm_pos hs), ?_, ?_, ?_⟩
  · unfold draw_hex
    rw [dif_pos hs]
  · intro cx cyb
    refine ⟨rfl, rfl, rfl, rfl⟩
  · intro cx cyb i
    have h3 : Real.sqrt 3 ^ 2 = 3 := Real.sq_sqrt (by norm_num)
    have hdx : (hexVertex (mm size) cx cyb i).1 - Q3.ofRat cx
        = Q3.ofRat (mm size) * hexCos i := by
      apply Q3.ext
      · simp [hexVertex]
      · simp [hexVertex]
    have hdy : (hexVertex (mm size) cx cyb i).2 - (⟨0, cyb⟩ : Q3)
        = Q3.ofRat (mm size) * hexSin i := by
      apply Q3.ext
      · simp [hexVertex]
      · simp [hexVertex]
    have hcs : (hexCos i).toReal ^ 2 + (hexSin i).toReal ^ 2 = 1 := by
      fin_cases i
      · norm_num [hexCos, hexSin, Q3.toReal]
      · norm_num [hexCos, hexSin, Q3.toReal]
        linear_combination ((1:ℝ)/4) * h3
      · norm_num [hexCos, hexSin, Q3.toReal]
        linear_combination ((1:ℝ)/4) * h3
      · norm_num [hexCos, hexSin, Q3.toReal]
      · norm_num [hexCos, hexSin, Q3.toReal]
        linear_combination ((1:ℝ)/4) * h3
      · norm_num [hexCos, hexSin, Q3.toReal]
        linear_combination ((1:ℝ)/4) * h3
    rw [hdx, hdy, Q3.toReal_mul, Q3.toReal_mul, Q3.toReal_ofRat]
    have hpos : (0:ℝ) ≤ ((mm size : ℚ) : ℝ) := by
      exact_mod_cast (mm_pos hs).le
    have key : (((mm size : ℚ) : ℝ) * (hexCos i).toReal) ^ 2
        + (((mm size : ℚ) : ℝ) * (hexSin i).toReal) ^ 2
        = ((mm size : ℚ) : ℝ) ^ 2 := by
      linear_combination (((mm size : ℚ) : ℝ)) ^ 2 * hcs
    rw [key]
    exact Real.sqrt_sq hpos

/-- Witness for C3's amended statement at a concrete input. -/
theorem hex_path_geometry_witness :
    (0:ℚ) < 5
    ∧ ∃ centers : List (ℚ × ℚ),
      draw_hex 20 30 5 2 "#cccccc" =
        [Element.path
          (centers.flatMap (fun p => hexBlock (mm 5) p.1 p.2))
          "#cccccc" (mm 2) "none"]
      ∧ (∀ cx cyb : ℚ,
          (hexBlock (mm 5) cx cyb).length = 7
          ∧ (hexBlock (mm 5) cx cyb).countP isL = 5
          ∧ (hexBlock (mm 5) cx cyb).head? =
              some (PathCmd.M (hexVertex (mm 5) cx cyb 0))
          ∧ (hexBlock (mm 5) cx cyb).getLast? = some PathCmd.Z)
      ∧ (∀ (cx cyb : ℚ) (i : Fin 6),
          Real.sqrt ((((hexVertex (mm 5) cx cyb i).1
              - Q3.ofRat cx).toReal) ^ 2
            + (((hexVertex (mm 5) cx cyb i).2
              - (⟨0, cyb⟩ : Q3)).toReal) ^ 2)
          = ((mm 5 : ℚ) : ℝ)) :=
  ⟨by norm_num, hex_path_geometry 20 30 5 2 "#cccccc" (by norm_num)⟩

/-- C3 counterexample: on a degenerate area the hex generator emits
exactly one hexagon, whose subpath has exactly 5 line-to segments (plus
the move-to and the closing command), not 6 as the claim states: the
full path data of the single emitted `Path` has one `M`, five `L` and
one `Z`. -/
theorem hex_segment_count_counterexample :
    ∃ d : List PathCmd,
      draw_hex 0 0 1 1 "c" = [Element.path d "c" (mm 1) "none"]
      ∧ d.countP isM = 1
      ∧ d.countP isL = 5
      ∧ d.countP isL ≠ 6 * d.countP isM := by
  have hc1 : (fun cx => decide (cx - mm 1 ≤ mm 0)) (0:ℚ) = true := by
    simp only [decide_eq_true_eq]
    norm_num [mm, MM_PER_PT]
  have hc2 : ¬ ((fun cx => decide (cx - mm 1 ≤ mm 0)) (0 + mm 1 * 2 * 0.75)
      = true) := by
    simp only [decide_eq_true_eq]
    norm_num [mm, MM_PER_PT]
  have houter : ratWhile (mm 1 * 2 * 0.75) (hexColStep_pos (mm_pos one_pos))
      (fun cx => decide (cx - mm 1 ≤ mm 0)) (mm 0 + mm 1)
      (hex_col_cert (mm 1) (mm 0)) 0 = [0] := by
    rw [ratWhile_eq, if_pos hc1, ratWhile_eq, if_neg hc2]
  have hc3 : (fun b : ℚ => Q3.le
      ((⟨0, b⟩ : Q3) - Q3.scale (1/2) (Q3.ofRat (mm 1) * Q3.sqrt3))
      (Q3.ofRat (mm 0))) (0:ℚ) = true := by
    norm_num [Q3.le, Q3.nonneg, Q3.sub_a, Q3.sub_b, Q3.mk_a, Q3.mk_b,
      Q3.scale_a, Q3.scale_b, Q3.mul_a, Q3.mul_b, Q3.ofRat_a, Q3.ofRat_b,
      Q3.sqrt3_a, Q3.sqrt3_b, mm, MM_PER_PT]
  have hc4 : ¬ ((fun b : ℚ => Q3.le
      ((⟨0, b⟩ : Q3) - Q3.scale (1/2) (Q3.ofRat (mm 1) * Q3.sqrt3))
      (Q3.ofRat (mm 0))) (0 + mm 1) = true) := by
    norm_num [Q3.le, Q3.nonneg, Q3.sub_a, Q3.sub_b, Q3.mk_a, Q3.mk_b,
      Q3.scale_a, Q3.scale_b, Q3.mul_a, Q3.mul_b, Q3.ofRat_a, Q3.ofRat_b,
      Q3.sqrt3_a, Q3.sqrt3_b, mm, MM_PER_PT]
  have hinner : ratWhile (mm 1) (mm_pos one_pos)
      (fun b : ℚ => Q3.le
        ((⟨0, b⟩ : Q3) - Q3.scale (1/2) (Q3.ofRat (mm 1) * Q3.sqrt3))
        (Q3.ofRat (mm 0)))
      (|mm 0| + mm 1 / 2) (hex_row_cert (mm 1) (mm 0)) 0 = [0] := by
    rw [ratWhile_eq, if_pos hc3, ratWhile_eq, if_neg hc4]
  have hcents : hexCenters (mm 1) (mm 0) (mm 0) (mm_pos one_pos)
      = [(0, 0)] := by
    unfold hexCenters
    rw [houter]
    have henum : List.enum [(0:ℚ)] = [(0, (0:ℚ))] := rfl
    rw [henum]
    simp only [List.flatMap_cons, List.flatMap_nil, List.append_nil]
    rw [if_neg (by norm_num : ¬ ((0:ℕ) % 2 = 1))]
    rw [hinner]
    simp
  refine ⟨hexBlock (mm 1) 0 0, ?_, ?_, ?_, ?_⟩
  · unfold draw_hex
    rw [dif_pos one_pos]
    simp only []
    rw [hcents]
    simp
  · simp [hexBlock, isM, List.countP_cons]
  · simp [hexBlock, isL, List.countP_cons]
  · simp [hexBlock, isL, isM, List.countP_cons]

/-- The configuration `type=grid, size=5mm, layout=full,
orientation=portrait` with the CLI defaults for the remaining flags
(`line-width 0.3`, `color #cccccc`, `margin 10`). -/
def cfg6 : Args :=
  ⟨.grid, 5, 0.3, "#cccccc", .portrait, .full, 10⟩

/-- C6 counterexample: the fixed conversion sends 215.9 mm to exactly
612 document units and 279.4 mm to exactly 792 (8.5×11 in at 72
units/inch), not to 609.07 and 791.53 as the claim states. -/
theorem end_to_end_units_counterexample :
    (make_page cfg6).width = 612
    ∧ (make_page cfg6).height = 792
    ∧ ¬ ((make_page cfg6).width = 60907 / 100)
    ∧ ¬ ((make_page cfg6).height = 79153 / 100) := by
  have hne : cfg6.orientation ≠ PageOrientation.landscape := by
    intro hcon
    exact PageOrientation.noConfusion hcon
  have hw : (make_page cfg6).width = 612 := by
    simp only [make_page]
    unfold page_w_mm_of
    rw [if_neg hne]
    norm_num [mm, MM_PER_PT, PAGE_W_MM]
  have hh : (make_page cfg6).height = 792 := by
    simp only [make_page]
    unfold page_h_mm_of
    rw [if_neg hne]
    norm_num [mm, MM_PER_PT, PAGE_H_MM]
  refine ⟨hw, hh, ?_, ?_⟩
  · rw [hw]
    norm_num
  · rw [hh]
    norm_num

/-- C6 (amended): `type=grid, size=5mm, layout=full, orientation=portrait`
yields a document of width 215.9 mm → 612 document units and height
279.4 mm → 792 units (via the fixed conversion), containing a background
rectangle sized to the full page followed by a single clipped panel
group. -/
theorem end_to_end_full_grid :
    (make_page cfg6).width = 612
    ∧ (make_page cfg6).height = 792
    ∧ (make_page cfg6).elements =
        [Element.rect 0 0 612 792 (some "white"),
         Element.g (some (mm 10, mm 10)) none
           [Element.defs [Element.clipPath "clip-0"
               [Element.rect 0 0 (mm 195.9) (mm 259.4) none]],
            Element.g none (some "clip-0")
              (draw_grid 195.9 259.4 5 0.3 "#cccccc")]] := by
  have hne : cfg6.orientation ≠ PageOrientation.landscape := by
    intro hcon
    exact PageOrientation.noConfusion hcon
  refine ⟨?_, ?_, ?_⟩
  · simp only [make_page]
    unfold page_w_mm_of
    rw [if_neg hne]
    norm_num [mm, MM_PER_PT, PAGE_W_MM]
  · simp only [make_page]
    unfold page_h_mm_of
    rw [if_neg hne]
    norm_num [mm, MM_PER_PT, PAGE_H_MM]
  · simp only [make_page]
    unfold page_w_mm_of page_h_mm_of
    rw [if_neg hne, if_neg hne]
    norm_num [cfg6, make_panel, DRAW_FNS, PAGE_W_MM, PAGE_H_MM, mm, MM_PER_PT]

/-- C1 counterexample: the compositor dispatches the inner area to the
generator still in millimeters, not in document units.  With a probe
generator that records its received `w`, `h` into a rect, `make_panel`
on a 100×100 mm panel with a 10 mm margin hands the generator `(80, 80)`
— the millimeter value — while the inner area in document units is
`mm 80 ≠ 80` (the clip rect, by contrast, is built in converted units).
The pattern generators convert their own inputs: see the amended
theorem. -/
theorem central_conversion_counterexample :
    make_panel (fun w h _ _ _ => [Element.rect w h 0 0 none])
        100 100 0 0 10 5 1 "c" "clip-0"
      = [Element.g (some (mm 10, mm 10)) none
          [Element.defs [Element.clipPath "clip-0"
              [Element.rect 0 0 (mm 80) (mm 80) none]],
           Element.g none (some "clip-0") [Element.rect 80 80 0 0 none]]]
    ∧ (80:ℚ) ≠ mm 80 := by
  constructor
  · norm_num [make_panel]
  · norm_num [mm, MM_PER_PT]

/-- C1 (amended): unit conversion does not happen centrally before
dispatch.  `make_panel` invokes the generator on the margin-inset area
still in millimeters (`pw − 2m`, `ph − 2m`), and each generator converts
its own inputs via the unit converter, once, at the start of generation —
e.g. the first vertical line of `draw_grid` spans `y ∈ [0, mm h]`, the
converted height of its millimeter input. -/
theorem generator_units_amended :
    (∀ (draw_fn : ℚ → ℚ → ℚ → ℚ → String → List Element)
        (pw ph ox oy m s lw : ℚ) (c id : String),
      ∃ clip : Element,
        make_panel draw_fn pw ph ox oy m s lw c id =
          [Element.g (some (ox + mm m, oy + mm m)) none
            [clip, Element.g none (some id)
              (draw_fn (pw - 2 * m) (ph - 2 * m) s lw c)]])
    ∧ (∀ (w h size lw : ℚ) (c : String), 0 < size → 0 ≤ w →
        ∃ rest : List Element,
          draw_grid w h size lw c =
            Element.line (Q3.ofRat 0) (Q3.ofRat 0) (Q3.ofRat 0)
              (Q3.ofRat (mm h)) c (mm lw) none :: rest) := by
  constructor
  · intro draw_fn pw ph ox oy m s lw c id
    exact ⟨Element.defs [Element.clipPath id
      [Element.rect 0 0 (mm (pw - 2 * m)) (mm (ph - 2 * m)) none]], rfl⟩
  · intro w h size lw c hs hw
    have hw0 : (0:ℚ) ≤ mm w + 0.01 := by linarith [mm_nonneg hw]
    unfold draw_grid
    rw [dif_pos hs]
    simp only []
    rw [ratWhile_le_eq, if_pos hw0, List.range_succ_eq_map]
    simp only [List.map_cons, List.map_map, List.cons_append]
    norm_num

/-- Witness for C1's amended statement at concrete inputs. -/
theorem generator_units_amended_witness :
    ((0:ℚ) < 5 ∧ (0:ℚ) ≤ 10)
    ∧ (∃ clip : Element,
        make_panel draw_grid 100 50 3 4 10 5 1 "c" "k" =
          [Element.g (some (3 + mm 10, 4 + mm 10)) none
            [clip, Element.g none (some "k")
              (draw_grid (100 - 2 * 10) (50 - 2 * 10) 5 1 "c")]])
    ∧ (∃ rest : List Element,
        draw_grid 10 7 5 1 "c" =
          Element.line (Q3.ofRat 0) (Q3.ofRat 0) (Q3.ofRat 0)
            (Q3.ofRat (mm 7)) "c" (mm 1) none :: rest) :=
  ⟨⟨by norm_num, by norm_num⟩,
   generator_units_amended.1 draw_grid 100 50 3 4 10 5 1 "c" "k",
   generator_units_amended.2 10 7 5 1 "c" (by norm_num) (by norm_num)⟩

/-- C8 counterexample: with a large spacing (1000 mm) on the full
layout's inner area, the grid generator emits 2 primitives, but
`panel count (4) × page area / spacing²` is below 1/4, so the claimed
bound fails (the bound lacks the additive +1-per-axis boundary lines). -/
theorem generator_bound_counterexample :
    (draw_grid 195.9 259.4 1000 0.3 "#cccccc").length = 2
    ∧ ¬ (((draw_grid 195.9 259.4 1000 0.3 "#cccccc").length : ℚ)
          ≤ 4 * ((mm PAGE_W_MM * mm PAGE_H_MM) / (mm 1000) ^ 2)) := by
  have hlen : (draw_grid 195.9 259.4 1000 0.3 "#cccccc").length = 2 := by
    unfold draw_grid
    rw [dif_pos (by norm_num : (0:ℚ) < 1000)]
    simp only []
    rw [ratWhile_le_eq, ratWhile_le_eq,
      if_pos (by norm_num [mm, MM_PER_PT] : (0:ℚ) ≤ mm 195.9 + 0.01),
      if_pos (by norm_num [mm, MM_PER_PT] : (0:ℚ) ≤ mm 259.4 + 0.01)]
    simp only [List.length_append, List.length_map, List.length_range]
    have h1 : ⌊(mm 195.9 + 0.01 - 0) / mm 1000⌋ = 0 :=
      Int.floor_eq_iff.mpr
        ⟨by norm_num [mm, MM_PER_PT], by norm_num [mm, MM_PER_PT]⟩
    have h2 : ⌊(mm 259.4 + 0.01 - 0) / mm 1000⌋ = 0 :=
      Int.floor_eq_iff.mpr
        ⟨by norm_num [mm, MM_PER_PT], by norm_num [mm, MM_PER_PT]⟩
    rw [h1, h2]
    rfl
  refine ⟨hlen, ?_⟩
  rw [hlen]
  norm_num [mm, MM_PER_PT, PAGE_W_MM, PAGE_H_MM]

/-- C8 (amended): for every spacing > 0 and non-negative area, the five
generators and the page assembly terminate (they are total functions of
the embedding), emitting finite primitive sequences with explicit
bounds: writing `Nx = ⌊(mm w + 0.01)/mm size⌋ + 1` and
`Ny = ⌊(mm h + 0.01)/mm size⌋ + 1` for the per-axis counts (the 0.01
boundary tolerance included), grid emits exactly `Nx + Ny` primitives,
dots exactly `Nx·Ny`, lined at most `Ny`, hex exactly one path, iso at
most `Ny + 2·(⌊(|mm w| + mm h/3)/(2·mm size/3)⌋ + 1)`; and the page
assembly nests at most 4 panel groups between one background and at most
one fold line (top-level element count ≤ 6).  The claim's bound
`page area / spacing²` fails for large spacing (see counterexample). -/
theorem generator_bounds (w h size lw : ℚ) (c : String)
    (hs : 0 < size) (hw : 0 ≤ w) (hh : 0 ≤ h) :
    (draw_grid w h size lw c).length
        = (⌊(mm w + 0.01) / mm size⌋.toNat + 1)
          + (⌊(mm h + 0.01) / mm size⌋.toNat + 1)
    ∧ (draw_dots w h size lw c).length
        = (⌊(mm w + 0.01) / mm size⌋.toNat + 1)
          * (⌊(mm h + 0.01) / mm size⌋.toNat + 1)
    ∧ (draw_lined w h size lw c).length
        ≤ ⌊(mm h + 0.01) / mm size⌋.toNat + 1
    ∧ (draw_hex w h size lw c).length = 1
    ∧ (draw_iso w h size lw c).length
        ≤ (⌊(mm h + 0.01) / mm size⌋.toNat + 1)
          + 2 * (⌊(|mm w| - -(mm h) / 3) / (2 * mm size / 3)⌋ + 1).toNat
    ∧ (∀ args : Args, (make_page args).elements.length ≤ 6) := by
  have hw0 : (0:ℚ) ≤ mm w + 0.01 := by linarith [mm_nonneg hw]
  have hh0 : (0:ℚ) ≤ mm h + 0.01 := by linarith [mm_nonneg hh]
  refine ⟨?_, ?_, ?_, ?_, ?_, ?_⟩
  · unfold draw_grid
    rw [dif_pos hs]
    simp only []
    rw [ratWhile_le_eq, ratWhile_le_eq, if_pos hw0, if_pos hh0]
    simp [sub_zero]
  · unfold draw_dots
    rw [dif_pos hs]
    simp only []
    rw [ratWhile_le_eq, ratWhile_le_eq, if_pos hw0, if_pos hh0]
    rw [List.length_flatMap]
    simp only [Function.comp_def, List.length_map, List.length_range, sub_zero]
    rw [List.map_const', List.sum_const_nat]
    simp [List.length_map, List.length_range]
  · unfold draw_lined
    rw [dif_pos hs]
    simp only []
    have hb := ratWhile_length_le (mm size) (mm_pos hs)
      (fun y => decide (y ≤ mm h + 0.01)) (mm h + 0.01)
      (le_cert (mm h + 0.01)) (mm size)
    rw [List.length_map]
    refine le_trans hb ?_
    have heq : (mm h + 0.01 - mm size) / mm size
        = (mm h + 0.01) / mm size - 1 := by
      rw [sub_div, div_self (ne_of_gt (mm_pos hs))]
    have hsub : ⌊(mm h + 0.01 - mm size) / mm size⌋
        = ⌊(mm h + 0.01) / mm size⌋ - 1 := by
      rw [heq]
      exact_mod_cast Int.floor_sub_int ((mm h + 0.01) / mm size) 1
    rw [hsub]
    omega
  · unfold draw_hex
    rw [dif_pos hs]
    rfl
  · unfold draw_iso
    rw [dif_pos hs]
    simp only []
    rw [ratWhile_le_eq, if_pos hh0]
    have hb := ratWhile_length_le (2 * mm size / 3)
      (iso_step_pos (mm_pos hs))
      (fun b : ℚ => Q3.le (⟨0, b⟩ : Q3) (Q3.ofRat (mm w))) |mm w|
      (iso_diag_cert (mm w)) (-(mm h) / 3)
    simp only [List.length_append, List.length_map, List.length_range,
      sub_zero]
    omega
  · intro args
    cases hl : args.layout <;>
      simp [make_page, make_panel, hl]

/-- Witness for C8's amended bounds at `w = 10`, `h = 7`, `size = 3`. -/
theorem generator_bounds_witness :
    ((0:ℚ) < 3 ∧ (0:ℚ) ≤ 10 ∧ (0:ℚ) ≤ 7)
    ∧ ((draw_grid 10 7 3 1 "c").length
          = (⌊(mm 10 + 0.01) / mm 3⌋.toNat + 1)
            + (⌊(mm 7 + 0.01) / mm 3⌋.toNat + 1)
      ∧ (draw_dots 10 7 3 1 "c").length
          = (⌊(mm 10 + 0.01) / mm 3⌋.toNat + 1)
            * (⌊(mm 7 + 0.01) / mm 3⌋.toNat + 1)
      ∧ (draw_lined 10 7 3 1 "c").length
          ≤ ⌊(mm 7 + 0.01) / mm 3⌋.toNat + 1
      ∧ (draw_hex 10 7 3 1 "c").length = 1
      ∧ (draw_iso 10 7 3 1 "c").length
          ≤ (⌊(mm 7 + 0.01) / mm 3⌋.toNat + 1)
            + 2 * (⌊(|mm 10| - -(mm 7) / 3) / (2 * mm 3 / 3)⌋ + 1).toNat
      ∧ (∀ args : Args, (make_page args).elements.length ≤ 6)) :=
  ⟨⟨by norm_num, by norm_num, by norm_num⟩,
   generator_bounds 10 7 3 1 "c" (by norm_num) (by norm_num) (by norm_num)⟩
